import Mathlib

/-!
Shallow embedding of `src/Untitled-2.c` (array-backed binary min-heap and
Huffman-tree builder).

Conventions of the embedding:
* A `node_t *` pointer is modelled by `NodeP`: either `null` or a node record
  `{item, freq, left_p, right_p}`.  The `item` field is `Option Char` because
  `new_node` (line 14 of the source) contains `temp->item - item;` — it
  computes a difference and discards it, so the field keeps its uninitialized
  malloc content; an indeterminate value is modelled as `none`.
* The heap's array of `capacity` allocated slots of which `size` are live is
  modelled by a `List NodeP` holding exactly the live prefix (so
  `size = array.length`) together with the `capacity` field.
* Machine integers hold small non-negative counts here, so they are modelled
  as `Nat`; the one place C int arithmetic matters (`(n - 1) / 2` with
  `n = size - 1` in `build_min_heap`, which is `-1` for `size = 0` so the
  loop body never runs) is handled by an explicit emptiness test.
* Code whose C behaviour is undefined (reading `array[0]` of an empty heap in
  `pop`, writing `array[size]` past the allocation in `insert` when
  `size == capacity`) is fallible and returns `Option`, with `none` standing
  for the undefined behaviour.
* The recursive/iterative loops (`heapify`, the sift-up loop of `insert`, the
  merge loop of `build_huffman_tree`) are written with an explicit fuel
  argument so that they are structurally recursive and compute by `rfl`;
  each wrapper supplies fuel that is proved (and in the easy cases obvious)
  to dominate the number of iterations the C loop performs.
-/

namespace HuffC

/-- Model of `node_t *`: a possibly-NULL pointer to a `node_t` record
(`item`, `freq`, `left_p`, `right_p`). -/
inductive NodeP where
  | null : NodeP
  | node (item : Option Char) (freq : Nat) (left_p right_p : NodeP) : NodeP
deriving DecidableEq, Repr

/-- The `freq` field of a node; dereferencing NULL is undefined behaviour in
the source and never happens on the program's own heaps, so the total model
returns 0 there. -/
def NodeP.freq : NodeP → Nat
  | .null => 0
  | .node _ f _ _ => f

/-- C function `new_node` (source lines 10–18).  Children are set to NULL and
`freq` is assigned; line 14 reads `temp->item - item;`, a subtraction whose
result is discarded, so the `item` argument never reaches the struct and the
field stays uninitialized (`none`). -/
def new_node (_item : Char) (freq : Nat) : NodeP :=
  .node none freq .null .null

/-- C function `is_leaf` (source lines 91–93): both child pointers are NULL. -/
def is_leaf (root_p : NodeP) : Bool :=
  match root_p with
  | .null => false
  | .node _ _ l r => l = NodeP.null && r = NodeP.null

/-- Model of `min_heap_t`: `capacity` allocated slots, of which the live prefix
(`size` elements) is the list `array`. -/
structure min_heap_t where
  capacity : Nat
  array : List NodeP
deriving DecidableEq, Repr

/-- Reading `heap->array[i]->freq` for an index into the live prefix. -/
def fr (a : List NodeP) (i : Nat) : Nat :=
  (a.getD i .null).freq

/-- C function `swap_node` (source lines 31–35) acting on the array. -/
def swapL (a : List NodeP) (i j : Nat) : List NodeP :=
  (a.set i (a.getD j .null)).set j (a.getD i .null)

/-- The `smallest` index computed by the two `if`s of `heapify`
(source lines 38–46): strict comparisons, so the parent wins ties with a
child and the left child wins ties with the right child. -/
def smallestIdx (a : List NodeP) (i : Nat) : Nat :=
  let s1 := if 2*i+1 < a.length ∧ fr a (2*i+1) < fr a i then 2*i+1 else i
  if 2*i+2 < a.length ∧ fr a (2*i+2) < fr a s1 then 2*i+2 else s1

/-- C function `heapify` (source lines 37–52), fueled.  Each recursive call
moves to a child index, so `a.length` steps of fuel always suffice; when the
fuel hits 0 the index is already ≥ `a.length` (given fuel ≥ length − index)
and the function would return `a` anyway. -/
def heapifyF : Nat → List NodeP → Nat → List NodeP
  | 0, a, _ => a
  | f+1, a, i =>
    let s := smallestIdx a i
    if s ≠ i then heapifyF f (swapL a s i) s else a

/-- C function `heapify` (source lines 37–52). -/
def heapify (a : List NodeP) (i : Nat) : List NodeP :=
  heapifyF a.length a i

/-- C function `check_size` (source lines 56–58): `size == 1`. -/
def check_size (heap_p : min_heap_t) : Bool :=
  heap_p.array.length = 1

/-- C function `pop` (source lines 60–68): save `array[0]`, move `array[size-1]` to
index 0, decrement `size`, sift down from the root, return the saved node.
(The C declares the temporary as `min_heap_t *`; per the source's own intent
— it is used as a node everywhere — the returned value is the node.)
With `size == 0` the C reads `array[0]` out of bounds and underflows `size`:
undefined behaviour, modelled as `none`. -/
def pop (heap_p : min_heap_t) : Option (NodeP × min_heap_t) :=
  if heap_p.array.length = 0 then none
  else
    let temp := heap_p.array.getD 0 .null
    let moved := heap_p.array.set 0 (heap_p.array.getD (heap_p.array.length - 1) .null)
    some (temp, { heap_p with array := heapify moved.dropLast 0 })

/-- The sift-up loop of `insert` (source lines 75–78), fueled: while `i ≠ 0`
and the new node's freq beats the parent's, pull the parent down and move to
the parent index; finally store the node at `i` (line 79).  The index at
least halves each step, so fuel = starting index suffices; at fuel 0 the
index is 0 and the loop would exit anyway, so the fuel case performs the same
final store. -/
def insertLoopF : Nat → List NodeP → NodeP → Nat → List NodeP
  | 0, a, node_p, i => a.set i node_p
  | f+1, a, node_p, i =>
    if i ≠ 0 ∧ node_p.freq < fr a ((i-1)/2) then
      insertLoopF f (a.set i (a.getD ((i-1)/2) .null)) node_p ((i-1)/2)
    else a.set i node_p

/-- C function `insert` (source lines 71–80): grow `size` by one and sift
the node up from the new last slot.  When `size == capacity` the C code
writes `array[size]` past the end of the allocation: undefined behaviour,
modelled as `none`. -/
def insert (heap_p : min_heap_t) (node_p : NodeP) : Option min_heap_t :=
  if heap_p.array.length < heap_p.capacity then
    some { heap_p with
           array := insertLoopF heap_p.array.length
                      (heap_p.array ++ [node_p]) node_p heap_p.array.length }
  else none

/-- The descending loop of `build_min_heap` (source lines 87–88):
`heapifyDownFrom a (k+1)` runs `heapify` at indices `k, k-1, …, 0`. -/
def heapifyDownFrom : List NodeP → Nat → List NodeP
  | a, 0 => a
  | a, k+1 => heapifyDownFrom (heapify a k) k

/-- C function `build_min_heap` (source lines 83–89): with int arithmetic the loop
starts at `i = (size - 2) / 2` truncated toward zero, i.e. at
`(size - 2) / 2` in `Nat` for `size ≥ 1` (for `size = 1` C computes
`(-1)/2 = 0`, matching `Nat`'s `(1-2)/2 = 0`), and for `size = 0` the start
index is negative so the loop body never runs. -/
def build_min_heap (a : List NodeP) : List NodeP :=
  if a.length = 0 then a else heapifyDownFrom a ((a.length - 2) / 2 + 1)

/-- C function `create_and_build_min_heap` (source lines 95–105): a
heap of capacity `size` whose slots are fresh leaves `new_node(item[i],
freq[i])`, then `build_min_heap`.  The two parallel C arrays are modelled as
one list of pairs. -/
def create_and_build_min_heap (pairs : List (Char × Nat)) : min_heap_t :=
  { capacity := pairs.length
    array := build_min_heap (pairs.map (fun p => new_node p.1 p.2)) }

/-- The merge loop of `build_huffman_tree` (source lines 111–122), fueled,
instrumented with a count of merge iterations (the `Nat` in the result).
One iteration pops the two minima, builds `new_node('$', l.freq + r.freq)`
with the popped nodes installed as left and right child (lines 115–118), and
inserts it back.  Each iteration shrinks the heap by one, so fuel = initial
size suffices; for an empty heap (empty input) the C loop pops from an empty
heap — undefined behaviour, modelled as `none` (fuel 0). -/
def buildLoopF : Nat → min_heap_t → Option (NodeP × Nat)
  | 0, _ => none
  | f+1, heap_p =>
    if check_size heap_p then (pop heap_p).map (fun p => (p.1, 0))
    else
      match pop heap_p with
      | none => none
      | some (left_p, h1) =>
        match pop h1 with
        | none => none
        | some (right_p, h2) =>
          let top_p := NodeP.node none (left_p.freq + right_p.freq) left_p right_p
          match insert h2 top_p with
          | none => none
          | some h3 => (buildLoopF f h3).map (fun p => (p.1, p.2 + 1))

/-- C function `build_huffman_tree` (source lines 107–123). -/
def build_huffman_tree (pairs : List (Char × Nat)) : Option NodeP :=
  (buildLoopF pairs.length (create_and_build_min_heap pairs)).map Prod.fst

/-- Number of merge iterations `build_huffman_tree` performs (the ghost
counter of `buildLoopF`). -/
def build_merge_count (pairs : List (Char × Nat)) : Option Nat :=
  (buildLoopF pairs.length (create_and_build_min_heap pairs)).map Prod.snd

/-- Number of leaf vertices (`is_leaf`, i.e. both children NULL) of the tree
hanging off a pointer; NULL contributes none. -/
def leaves : NodeP → Nat
  | .null => 0
  | .node _ _ .null .null => 1
  | .node _ _ l r => leaves l + leaves r

/-- Number of internal (non-leaf) vertices of the tree hanging off a
pointer. -/
def internals : NodeP → Nat
  | .null => 0
  | .node _ _ .null .null => 0
  | .node _ _ l r => internals l + internals r + 1

/-- Sum of the `freq` fields of the leaves of the tree hanging off a
pointer. -/
def leafSum : NodeP → Nat
  | .null => 0
  | .node _ f .null .null => f
  | .node _ _ l r => leafSum l + leafSum r

/-- The local heap condition at index `j`: `j`'s freq is ≤ each of its
children's freqs, for the children that lie inside the live prefix. -/
def localOk (a : List NodeP) (j : Nat) : Prop :=
  (2*j+1 < a.length → fr a j ≤ fr a (2*j+1)) ∧
  (2*j+2 < a.length → fr a j ≤ fr a (2*j+2))

instance (a : List NodeP) (j : Nat) : Decidable (localOk a j) := by
  unfold localOk; infer_instance

/-- The heap property on the live prefix: the local condition holds at every
index. -/
def heapProp (a : List NodeP) : Prop :=
  ∀ i < a.length, localOk a i

instance (a : List NodeP) : Decidable (heapProp a) := by
  unfold heapProp; infer_instance

/-- The heap property phrased on parent/child index pairs. -/
def heapPairs (a : List NodeP) : Prop :=
  ∀ j c, (c = 2*j+1 ∨ c = 2*j+2) → c < a.length → fr a j ≤ fr a c

/-- Subtree membership `inSub s j`: index `j` lies in the array-subtree rooted at index `s`
(follow parent links `(j-1)/2` from `j`; reaching `s` means membership). -/
def inSub (s j : Nat) : Bool :=
  if j < s then false
  else if j = s then true
  else inSub s ((j-1)/2)
termination_by j
decreasing_by omega

/-- The subtree rooted at `s` satisfies the heap condition at each of its
members. -/
def subOk (a : List NodeP) (s : Nat) : Prop :=
  ∀ j, inSub s j = true → localOk a j

/-- The heap property on all parent/child pairs except the pair whose child
is `i` (the "hole" of the sift-up loop of `insert`). -/
def heapExceptAt (b : List NodeP) (i : Nat) : Prop :=
  ∀ j c, (c = 2*j+1 ∨ c = 2*j+2) → c < b.length → c ≠ i → fr b j ≤ fr b c

/-- Well-formed Huffman tree pointer: non-NULL, and every vertex has either
no children (a leaf) or two non-NULL children whose freqs sum to its own. -/
def wfN : NodeP → Prop
  | .null => False
  | .node _ _ .null .null => True
  | .node _ _ .null (.node ..) => False
  | .node _ _ (.node ..) .null => False
  | .node _ f l r => f = l.freq + r.freq ∧ wfN l ∧ wfN r

/-- The freqs returned by `k` successive `pop` calls (stopping early if a
`pop` hits the empty-heap undefined behaviour). -/
def popSeq : min_heap_t → Nat → List Nat
  | _, 0 => []
  | heap_p, k+1 =>
    match pop heap_p with
    | none => []
    | some (x, h') => x.freq :: popSeq h' k

/-- Total number of tree leaves stored in the heap. -/
def sumLeaves (heap_p : min_heap_t) : Nat :=
  (heap_p.array.map leaves).sum

/-- Total number of internal tree vertices stored in the heap. -/
def sumInternals (heap_p : min_heap_t) : Nat :=
  (heap_p.array.map internals).sum


/-! ### Length preservation -/

theorem length_swapL (a : List NodeP) (i j : Nat) : (swapL a i j).length = a.length := by
  simp [swapL]

theorem length_heapifyF : ∀ (f : Nat) (a : List NodeP) (i : Nat),
    (heapifyF f a i).length = a.length := by
  intro f
  induction f with
  | zero => intro a i; rfl
  | succ f ih =>
    intro a i
    simp only [heapifyF]
    split
    · rw [ih, length_swapL]
    · rfl

theorem length_heapify (a : List NodeP) (i : Nat) : (heapify a i).length = a.length :=
  length_heapifyF _ _ _

theorem length_heapifyDownFrom : ∀ (k : Nat) (a : List NodeP),
    (heapifyDownFrom a k).length = a.length := by
  intro k
  induction k with
  | zero => intro a; rfl
  | succ k ih => intro a; simp only [heapifyDownFrom]; rw [ih, length_heapify]

theorem length_build_min_heap (a : List NodeP) : (build_min_heap a).length = a.length := by
  unfold build_min_heap
  split
  · rfl
  · rw [length_heapifyDownFrom]

theorem length_insertLoopF : ∀ (f : Nat) (a : List NodeP) (n : NodeP) (i : Nat),
    (insertLoopF f a n i).length = a.length := by
  intro f
  induction f with
  | zero => intro a n i; simp [insertLoopF]
  | succ f ih =>
    intro a n i
    simp only [insertLoopF]
    split
    · rw [ih]; simp
    · simp

/-! ### Reading entries through `set` and `swapL` -/

theorem getD_set_self (a : List NodeP) (i : Nat) (x : NodeP) (h : i < a.length) :
    (a.set i x).getD i .null = x := by
  simp [List.getD_eq_getElem?_getD, List.getElem?_set, h]

theorem getD_set_ne (a : List NodeP) (i j : Nat) (x : NodeP) (h : i ≠ j) :
    (a.set i x).getD j .null = a.getD j .null := by
  simp [List.getD_eq_getElem?_getD, List.getElem?_set, h]

theorem swapL_getD_fst (a : List NodeP) (i j : Nat) (hi : i < a.length) (hij : i ≠ j) :
    (swapL a i j).getD i .null = a.getD j .null := by
  unfold swapL
  rw [getD_set_ne _ _ _ _ (Ne.symm hij), getD_set_self _ _ _ hi]

theorem swapL_getD_snd (a : List NodeP) (i j : Nat) (hj : j < a.length) :
    (swapL a i j).getD j .null = a.getD i .null := by
  unfold swapL
  rw [getD_set_self]
  simpa using hj

theorem swapL_getD_other (a : List NodeP) (i j k : Nat) (hki : k ≠ i) (hkj : k ≠ j) :
    (swapL a i j).getD k .null = a.getD k .null := by
  unfold swapL
  rw [getD_set_ne _ _ _ _ (Ne.symm hkj), getD_set_ne _ _ _ _ (Ne.symm hki)]

theorem fr_swapL_fst (a : List NodeP) (i j : Nat) (hi : i < a.length) (hij : i ≠ j) :
    fr (swapL a i j) i = fr a j := by
  unfold fr; rw [swapL_getD_fst a i j hi hij]

theorem fr_swapL_snd (a : List NodeP) (i j : Nat) (hj : j < a.length) :
    fr (swapL a i j) j = fr a i := by
  unfold fr; rw [swapL_getD_snd a i j hj]

theorem fr_swapL_other (a : List NodeP) (i j k : Nat) (hki : k ≠ i) (hkj : k ≠ j) :
    fr (swapL a i j) k = fr a k := by
  unfold fr; rw [swapL_getD_other a i j k hki hkj]

/-! ### Permutation facts -/

theorem getD_cons_set_perm {α : Type} (d : α) :
    ∀ (l : List α) (m : Nat), m < l.length → ∀ x : α,
      ((l.getD m d) :: l.set m x).Perm (x :: l) := by
  intro l
  induction l with
  | nil => intro m hm; exact absurd hm (by simp)
  | cons y ys ih =>
    intro m hm x
    match m with
    | 0 => exact List.Perm.swap x y ys
    | Nat.succ m =>
      have hm' : m < ys.length := by simpa using hm
      exact ((List.Perm.swap y (ys.getD m d) (ys.set m x)).trans
        ((ih m hm' x).cons y)).trans (List.Perm.swap x y ys)

theorem set_set_swap_perm {α : Type} (d : α) :
    ∀ (a : List α) (i j : Nat), i < a.length → j < a.length →
      ((a.set i (a.getD j d)).set j (a.getD i d)).Perm a := by
  intro a
  induction a with
  | nil => intro i j hi; exact absurd hi (by simp)
  | cons z zs ih =>
    intro i j hi hj
    match i, j with
    | 0, 0 => simp
    | 0, Nat.succ m =>
      have hm : m < zs.length := by simpa using hj
      simpa using getD_cons_set_perm d zs m hm z
    | Nat.succ n, 0 =>
      have hn : n < zs.length := by simpa using hi
      simpa using getD_cons_set_perm d zs n hn z
    | Nat.succ n, Nat.succ m =>
      have hn : n < zs.length := by simpa using hi
      have hm : m < zs.length := by simpa using hj
      simpa using List.Perm.cons z (ih n m hn hm)

theorem swapL_perm (a : List NodeP) (i j : Nat) (hi : i < a.length) (hj : j < a.length) :
    (swapL a i j).Perm a := by
  unfold swapL
  exact set_set_swap_perm .null a i j hi hj

/-! ### The `smallest` index of `heapify` -/

theorem smallestIdx_spec (a : List NodeP) (i : Nat) :
    (smallestIdx a i = i ∧
      (2*i+1 < a.length → fr a i ≤ fr a (2*i+1)) ∧
      (2*i+2 < a.length → fr a i ≤ fr a (2*i+2))) ∨
    ((smallestIdx a i = 2*i+1 ∨ smallestIdx a i = 2*i+2) ∧
      smallestIdx a i < a.length ∧ i < smallestIdx a i ∧
      fr a (smallestIdx a i) < fr a i ∧
      (2*i+1 < a.length → fr a (smallestIdx a i) ≤ fr a (2*i+1)) ∧
      (2*i+2 < a.length → fr a (smallestIdx a i) ≤ fr a (2*i+2))) := by
  simp only [smallestIdx]
  by_cases h1 : 2*i+1 < a.length ∧ fr a (2*i+1) < fr a i
  · rw [if_pos h1]
    by_cases h2 : 2*i+2 < a.length ∧ fr a (2*i+2) < fr a (2*i+1)
    · rw [if_pos h2]
      exact Or.inr ⟨Or.inr rfl, h2.1, by omega, lt_trans h2.2 h1.2,
        fun _ => le_of_lt h2.2, fun _ => le_rfl⟩
    · rw [if_neg h2]
      refine Or.inr ⟨Or.inl rfl, h1.1, by omega, h1.2, fun _ => le_rfl, fun hr => ?_⟩
      have := fun h => h2 ⟨hr, h⟩
      omega
  · rw [if_neg h1]
    by_cases h2 : 2*i+2 < a.length ∧ fr a (2*i+2) < fr a i
    · rw [if_pos h2]
      refine Or.inr ⟨Or.inr rfl, h2.1, by omega, h2.2, fun hl => ?_, fun _ => le_rfl⟩
      have := fun h => h1 ⟨hl, h⟩
      omega
    · rw [if_neg h2]
      refine Or.inl ⟨rfl, fun hl => ?_, fun hr => ?_⟩
      · have := fun h => h1 ⟨hl, h⟩
        omega
      · have := fun h => h2 ⟨hr, h⟩
        omega

/-! ### Claims settled by direct evaluation: empty input, singleton input -/

/-- Claim C5: on the empty input the code does not return `EmptyInput`; the
merge loop pops from an empty heap (undefined behaviour, `none` in the
model). -/
theorem huffman_c5 : build_huffman_tree [] = none := rfl

/-- Claim C6: on the single-pair input `[('a', 5)]` the code returns a single
leaf of weight 5 with no error, but its `item` field is `none` (line 14 of
the source discards the symbol with `temp->item - item;`), not the supplied
symbol `'a'`. -/
theorem huffman_c6 :
    build_huffman_tree [('a', 5)] = some (NodeP.node none 5 .null .null) := rfl

/-- Claim C7: `pop` on an empty heap performs the undefined out-of-bounds
read (modelled `none`) instead of a typed `HeapEmpty` error; on any heap of
size ≥ 1 it succeeds. -/
theorem huffman_c7 :
    (∀ heap_p : min_heap_t, heap_p.array.length = 0 → pop heap_p = none) ∧
    (∀ heap_p : min_heap_t, heap_p.array.length ≠ 0 →
      ∃ x h', pop heap_p = some (x, h')) := by
  constructor
  · intro heap_p hz
    rw [pop, if_pos hz]
  · intro heap_p hnz
    rw [pop, if_neg hnz]
    exact ⟨_, _, rfl⟩

theorem huffman_c7_witness :
    pop ⟨1, []⟩ = none ∧
    ∃ x h', pop ⟨1, [NodeP.node none 3 .null .null]⟩ = some (x, h') :=
  ⟨huffman_c7.1 ⟨1, []⟩ rfl, huffman_c7.2 ⟨1, [NodeP.node none 3 .null .null]⟩ (by decide)⟩

/-- Claim C8: `insert` on a full heap (`size == capacity`) performs the
undefined out-of-bounds write (modelled `none`) instead of a typed `HeapFull`
error; with a spare slot it succeeds and grows the size by one. -/
theorem huffman_c8 :
    (∀ (heap_p : min_heap_t) (node_p : NodeP),
      heap_p.array.length = heap_p.capacity → insert heap_p node_p = none) ∧
    (∀ (heap_p : min_heap_t) (node_p : NodeP),
      heap_p.array.length < heap_p.capacity →
      ∃ h', insert heap_p node_p = some h' ∧
        h'.array.length = heap_p.array.length + 1) := by
  constructor
  · intro heap_p node_p hfull
    rw [insert, if_neg (by omega)]
  · intro heap_p node_p hlt
    rw [insert, if_pos hlt]
    refine ⟨_, rfl, ?_⟩
    rw [length_insertLoopF]
    simp


theorem huffman_c8_witness :
    insert ⟨0, []⟩ NodeP.null = none ∧
    ∃ h', insert ⟨1, []⟩ (NodeP.node none 3 .null .null) = some h' ∧
      h'.array.length = 0 + 1 :=
  ⟨huffman_c8.1 ⟨0, []⟩ NodeP.null rfl,
   huffman_c8.2 ⟨1, []⟩ (NodeP.node none 3 .null .null) (by decide)⟩

/-- Claim C9: `build_huffman_tree` is deterministic — equal input sequences
give equal results (hence identical tree shapes) — and the sift-down
`smallest` selection prefers the left child when both children tie in weight
below the parent. -/
theorem huffman_c9 :
    (∀ p1 p2 : List (Char × Nat), p1 = p2 →
      build_huffman_tree p1 = build_huffman_tree p2) ∧
    (∀ (a : List NodeP) (i : Nat), 2*i+1 < a.length → 2*i+2 < a.length →
      fr a (2*i+1) = fr a (2*i+2) → fr a (2*i+1) < fr a i →
      smallestIdx a i = 2*i+1) := by
  constructor
  · intro p1 p2 h
    rw [h]
  · intro a i h1 h2 he hl
    simp only [smallestIdx]
    have hs1 : (if 2*i+1 < a.length ∧ fr a (2*i+1) < fr a i then 2*i+1 else i)
        = 2*i+1 := if_pos ⟨h1, hl⟩
    rw [hs1, if_neg]
    rintro ⟨-, hc⟩
    omega

theorem huffman_c9_witness :
    smallestIdx [NodeP.node none 5 .null .null, NodeP.node none 2 .null .null,
      NodeP.node none 2 .null .null] 0 = 1 :=
  huffman_c9.2 _ 0 (by decide) (by decide) (by decide) (by decide)

/-! ### Permutation behaviour of the heap operations -/

theorem heapifyF_perm : ∀ (f : Nat) (a : List NodeP) (i : Nat),
    (heapifyF f a i).Perm a := by
  intro f
  induction f with
  | zero => intro a i; exact List.Perm.refl a
  | succ f ih =>
    intro a i
    simp only [heapifyF]
    split
    next hne =>
      rcases smallestIdx_spec a i with hs | hs
      · exact absurd hs.1 hne
      · have hi : i < a.length := lt_trans hs.2.2.1 hs.2.1
        exact (ih _ _).trans (swapL_perm a _ i hs.2.1 hi)
    next => exact List.Perm.refl a

theorem heapify_perm (a : List NodeP) (i : Nat) : (heapify a i).Perm a :=
  heapifyF_perm _ _ _

theorem heapifyDownFrom_perm : ∀ (k : Nat) (a : List NodeP),
    (heapifyDownFrom a k).Perm a := by
  intro k
  induction k with
  | zero => intro a; exact List.Perm.refl a
  | succ k ih =>
    intro a
    simp only [heapifyDownFrom]
    exact (ih _).trans (heapify_perm a k)

theorem build_min_heap_perm (a : List NodeP) : (build_min_heap a).Perm a := by
  unfold build_min_heap
  split
  · exact List.Perm.refl a
  · exact heapifyDownFrom_perm _ _

theorem insertLoopF_perm : ∀ (f : Nat) (a : List NodeP) (n : NodeP) (i : Nat),
    i < a.length → (insertLoopF f a n i).Perm (a.set i n) := by
  intro f
  induction f with
  | zero => intro a n i _; exact List.Perm.refl _
  | succ f ih =>
    intro a n i hi
    simp only [insertLoopF]
    split
    next hc =>
      have hi0 : i ≠ 0 := hc.1
      have hp : (i-1)/2 < i := by omega
      have hplen : (i-1)/2 < a.length := lt_trans hp hi
      have h1 : (i-1)/2 < (a.set i (a.getD ((i-1)/2) .null)).length := by
        simpa using hplen
      refine (ih _ n _ h1).trans ?_
      have hswap : (a.set i (a.getD ((i-1)/2) .null)).set ((i-1)/2) n
          = swapL (a.set i n) i ((i-1)/2) := by
        unfold swapL
        rw [getD_set_ne _ _ _ _ (by omega), getD_set_self _ _ _ hi, List.set_set]
      rw [hswap]
      exact swapL_perm _ _ _ (by simpa using hi) (by simpa using hplen)
    next => exact List.Perm.refl _

theorem insert_perm (heap_p : min_heap_t) (node_p : NodeP) (h' : min_heap_t)
    (he : insert heap_p node_p = some h') :
    h'.array.Perm (heap_p.array ++ [node_p]) := by
  rw [insert] at he
  split at he
  next hlt =>
    have h1 : heap_p.array.length < (heap_p.array ++ [node_p]).length := by simp
    have := insertLoopF_perm heap_p.array.length (heap_p.array ++ [node_p])
      node_p heap_p.array.length h1
    have hset : (heap_p.array ++ [node_p]).set heap_p.array.length node_p
        = heap_p.array ++ [node_p] := by
      rw [List.set_append_right _ _ (le_refl _)]
      simp
    cases he
    rw [hset] at this
    exact this
  next => exact absurd he (by simp)

theorem getD_last (l : List NodeP) (h : l ≠ []) :
    l.getD (l.length - 1) .null = l.getLast h := by
  have hp : 0 < l.length := List.length_pos.mpr h
  rw [List.getLast_eq_getElem, List.getD_eq_getElem?_getD,
    List.getElem?_eq_getElem (by omega)]
  rfl

theorem self_perm_last_cons_dropLast (l : List NodeP) (h : l ≠ []) :
    l.Perm ((l.getD (l.length - 1) .null) :: l.dropLast) := by
  conv_lhs => rw [← List.dropLast_append_getLast h]
  rw [getD_last l h]
  exact (List.perm_middle).trans (by simp)

theorem popArr_perm (a : List NodeP) (h : a ≠ []) :
    a.Perm ((a.getD 0 .null) ::
      heapify ((a.set 0 (a.getD (a.length - 1) .null)).dropLast) 0) := by
  match a with
  | [y] => exact List.Perm.refl [y]
  | y :: z :: zs =>
    refine List.Perm.trans ?_ (List.Perm.cons _ (heapify_perm _ 0).symm)
    have hv : (y :: z :: zs).getD ((y :: z :: zs).length - 1) .null
        = (z :: zs).getD ((z :: zs).length - 1) .null := by
      simp [List.getD_eq_getElem?_getD]
    show (y :: z :: zs).Perm (y ::
      (((y :: z :: zs).getD ((y :: z :: zs).length - 1) .null) :: z :: zs).dropLast)
    rw [hv]
    show (y :: z :: zs).Perm
      (y :: ((z :: zs).getD ((z :: zs).length - 1) .null) :: (z :: zs).dropLast)
    exact List.Perm.cons y (self_perm_last_cons_dropLast (z :: zs) (by simp))

theorem pop_perm (heap_p : min_heap_t) (x : NodeP) (h' : min_heap_t)
    (he : pop heap_p = some (x, h')) :
    heap_p.array.Perm (x :: h'.array) := by
  rw [pop] at he
  split at he
  next => exact absurd he (by simp)
  next hnz =>
    simp only [Option.some.injEq, Prod.mk.injEq] at he
    obtain ⟨hx, hh⟩ := he
    have harr : h'.array = heapify
        ((heap_p.array.set 0 (heap_p.array.getD (heap_p.array.length - 1) .null)).dropLast) 0 := by
      rw [← hh]
    rw [harr, ← hx]
    refine popArr_perm heap_p.array ?_
    intro hc
    exact hnz (by rw [hc]; rfl)

/-- Claim C10: no heap operation duplicates or loses a node — `insert` adds
exactly the inserted node, `pop` removes exactly the returned node, and the
bulk-load installs exactly the supplied nodes (all up to permutation). -/
theorem huffman_c10 :
    (∀ (heap_p : min_heap_t) (node_p : NodeP) (h' : min_heap_t),
      insert heap_p node_p = some h' → h'.array.Perm (heap_p.array ++ [node_p])) ∧
    (∀ (heap_p : min_heap_t) (x : NodeP) (h' : min_heap_t),
      pop heap_p = some (x, h') → heap_p.array.Perm (x :: h'.array)) ∧
    (∀ a : List NodeP, (build_min_heap a).Perm a) ∧
    (∀ pairs : List (Char × Nat),
      (create_and_build_min_heap pairs).array.Perm
        (pairs.map (fun p => new_node p.1 p.2))) :=
  ⟨insert_perm, pop_perm, build_min_heap_perm, by
    intro pairs
    show (build_min_heap (pairs.map (fun p => new_node p.1 p.2))).Perm
      (pairs.map (fun p => new_node p.1 p.2))
    exact build_min_heap_perm _⟩

theorem huffman_c10_witness :
    ([NodeP.node none 1 .null .null, NodeP.node none 2 .null .null] : List NodeP).Perm
      (NodeP.node none 1 .null .null :: [NodeP.node none 2 .null .null]) :=
  huffman_c10.2.1 ⟨2, [NodeP.node none 1 .null .null, NodeP.node none 2 .null .null]⟩
    (NodeP.node none 1 .null .null) ⟨2, [NodeP.node none 2 .null .null]⟩ rfl

/-! ### Successful-step shapes of `pop` and `insert` -/

theorem pop_some (heap_p : min_heap_t) (hne : heap_p.array.length ≠ 0) :
    ∃ x h', pop heap_p = some (x, h') ∧ h'.capacity = heap_p.capacity ∧
      h'.array.length = heap_p.array.length - 1 ∧
      x = heap_p.array.getD 0 .null := by
  rw [pop, if_neg hne]
  refine ⟨_, _, rfl, rfl, ?_, rfl⟩
  simp [length_heapify]

theorem insert_some (heap_p : min_heap_t) (node_p : NodeP)
    (hlt : heap_p.array.length < heap_p.capacity) :
    ∃ h', insert heap_p node_p = some h' ∧ h'.capacity = heap_p.capacity ∧
      h'.array.length = heap_p.array.length + 1 := by
  rw [insert, if_pos hlt]
  refine ⟨_, rfl, rfl, ?_⟩
  rw [length_insertLoopF]
  simp

/-! ### Well-formed trees and the merge loop -/

theorem wfN_leafSum : ∀ t : NodeP, wfN t → leafSum t = t.freq := by
  intro t
  induction t with
  | null => intro h; exact absurd h (by simp [wfN])
  | node it f l r ihl ihr =>
    intro h
    match l, r, ihl, ihr, h with
    | .null, .null, _, _, _ => rfl
    | .null, .node i2 f2 a2 b2, _, _, h => exact absurd h (by simp [wfN])
    | .node i1 f1 a1 b1, .null, _, _, h => exact absurd h (by simp [wfN])
    | .node i1 f1 a1 b1, .node i2 f2 a2 b2, ihl, ihr, h =>
      obtain ⟨hf, hl, hr⟩ := h
      show leafSum (.node i1 f1 a1 b1) + leafSum (.node i2 f2 a2 b2) = NodeP.freq _
      rw [ihl hl, ihr hr]
      simp [NodeP.freq, hf]

theorem wfN_top (l r : NodeP) (hl : wfN l) (hr : wfN r) (f : Nat)
    (hf : f = l.freq + r.freq) : wfN (.node none f l r) := by
  match l, r, hl, hr with
  | .null, _, hl, _ => exact absurd hl (by simp [wfN])
  | .node .., .null, _, hr => exact absurd hr (by simp [wfN])
  | .node i1 f1 a1 b1, .node i2 f2 a2 b2, hl, hr => exact ⟨hf, hl, hr⟩

theorem leaves_top (l r : NodeP) (hl : wfN l) (hr : wfN r) (it : Option Char) (f : Nat) :
    leaves (.node it f l r) = leaves l + leaves r := by
  match l, r, hl, hr with
  | .null, _, hl, _ => exact absurd hl (by simp [wfN])
  | .node .., .null, _, hr => exact absurd hr (by simp [wfN])
  | .node i1 f1 a1 b1, .node i2 f2 a2 b2, hl, hr => rfl

theorem internals_top (l r : NodeP) (hl : wfN l) (hr : wfN r) (it : Option Char) (f : Nat) :
    internals (.node it f l r) = internals l + internals r + 1 := by
  match l, r, hl, hr with
  | .null, _, hl, _ => exact absurd hl (by simp [wfN])
  | .node .., .null, _, hr => exact absurd hr (by simp [wfN])
  | .node i1 f1 a1 b1, .node i2 f2 a2 b2, hl, hr => rfl

theorem perm_sumMap (g : NodeP → Nat) {l1 l2 : List NodeP} (h : l1.Perm l2) :
    (l1.map g).sum = (l2.map g).sum :=
  (h.map g).sum_eq

theorem buildLoopF_spec : ∀ (f : Nat) (heap_p : min_heap_t),
    heap_p.array.length ≤ f → 1 ≤ heap_p.array.length →
    heap_p.array.length ≤ heap_p.capacity →
    (∀ t ∈ heap_p.array, wfN t) →
    ∃ root c, buildLoopF f heap_p = some (root, c) ∧
      c = heap_p.array.length - 1 ∧ wfN root ∧
      leaves root = sumLeaves heap_p ∧
      internals root = sumInternals heap_p + (heap_p.array.length - 1) := by
  intro f
  induction f with
  | zero => intro heap_p hf h1 _ _; omega
  | succ f ih =>
    intro heap_p hf h1 hcap hwf
    by_cases hone : heap_p.array.length = 1
    · have hcs : check_size heap_p = true := by
        simp [check_size, hone]
      obtain ⟨t, ht⟩ := List.length_eq_one.mp hone
      obtain ⟨x, h2, he, -, -, hx⟩ := pop_some heap_p (by omega)
      have hstep : buildLoopF (f+1) heap_p = some (x, 0) := by
        simp only [buildLoopF]
        rw [if_pos hcs, he]
        rfl
      rw [hstep]
      refine ⟨x, 0, rfl, by omega, ?_, ?_, ?_⟩
      · have : x = t := by rw [hx, ht]; rfl
        rw [this]
        exact hwf t (by rw [ht]; exact List.mem_singleton_self t)
      · have : x = t := by rw [hx, ht]; rfl
        rw [this]
        simp [sumLeaves, ht]
      · have : x = t := by rw [hx, ht]; rfl
        rw [this]
        simp [sumInternals, ht, hone]
    · have hge2 : 2 ≤ heap_p.array.length := by omega
      have hcs : ¬ check_size heap_p = true := by
        simp [check_size]
        omega
      obtain ⟨l₁, hh1, he1, hc1, hl1, -⟩ := pop_some heap_p (by omega)
      obtain ⟨r₁, hh2, he2, hc2, hl2, -⟩ := pop_some hh1 (by omega)
      have hwf1 : ∀ t ∈ hh1.array, wfN t := by
        intro t ht
        exact hwf t ((pop_perm _ _ _ he1).mem_iff.mpr (List.mem_cons_of_mem _ ht))
      have hwfl : wfN l₁ :=
        hwf l₁ ((pop_perm _ _ _ he1).mem_iff.mpr (List.mem_cons_self _ _))
      have hwfr : wfN r₁ :=
        hwf1 r₁ ((pop_perm _ _ _ he2).mem_iff.mpr (List.mem_cons_self _ _))
      have hwf2 : ∀ t ∈ hh2.array, wfN t := by
        intro t ht
        exact hwf1 t ((pop_perm _ _ _ he2).mem_iff.mpr (List.mem_cons_of_mem _ ht))
      obtain ⟨hh3, he3, hc3, hl3⟩ := insert_some hh2
        (NodeP.node none (l₁.freq + r₁.freq) l₁ r₁) (by omega)
      have hwftop : wfN (NodeP.node none (l₁.freq + r₁.freq) l₁ r₁) :=
        wfN_top l₁ r₁ hwfl hwfr _ rfl
      have hwf3 : ∀ t ∈ hh3.array, wfN t := by
        intro t ht
        have hmem := (insert_perm _ _ _ he3).mem_iff.mp ht
        rcases List.mem_append.mp hmem with hmem2 | hmem2
        · exact hwf2 t hmem2
        · rw [List.mem_singleton.mp hmem2]
          exact hwftop
      obtain ⟨root, c, heL, hcEq, hwfroot, hleaves, hint⟩ := ih hh3
        (by omega) (by omega) (by omega) hwf3
      have hstep : buildLoopF (f+1) heap_p
          = (buildLoopF f hh3).map (fun p => (p.1, p.2 + 1)) := by
        simp only [buildLoopF]
        rw [if_neg hcs]
        simp only [he1, he2, he3]
      rw [hstep, heL]
      refine ⟨root, c + 1, rfl, by omega, hwfroot, ?_, ?_⟩
      · have hsum3 : sumLeaves hh3 = sumLeaves hh2
            + leaves (NodeP.node none (l₁.freq + r₁.freq) l₁ r₁) := by
          unfold sumLeaves
          rw [perm_sumMap leaves (insert_perm _ _ _ he3)]
          simp
        have hsum1 : sumLeaves heap_p = leaves l₁ + sumLeaves hh1 := by
          unfold sumLeaves
          rw [perm_sumMap leaves (pop_perm _ _ _ he1)]
          simp
        have hsum2 : sumLeaves hh1 = leaves r₁ + sumLeaves hh2 := by
          unfold sumLeaves
          rw [perm_sumMap leaves (pop_perm _ _ _ he2)]
          simp
        rw [hleaves, hsum3, leaves_top l₁ r₁ hwfl hwfr, hsum1, hsum2]
        omega
      · have hsum3 : sumInternals hh3 = sumInternals hh2
            + internals (NodeP.node none (l₁.freq + r₁.freq) l₁ r₁) := by
          unfold sumInternals
          rw [perm_sumMap internals (insert_perm _ _ _ he3)]
          simp
        have hsum1 : sumInternals heap_p = internals l₁ + sumInternals hh1 := by
          unfold sumInternals
          rw [perm_sumMap internals (pop_perm _ _ _ he1)]
          simp
        have hsum2 : sumInternals hh1 = internals r₁ + sumInternals hh2 := by
          unfold sumInternals
          rw [perm_sumMap internals (pop_perm _ _ _ he2)]
          simp
        rw [hint, hsum3, internals_top l₁ r₁ hwfl hwfr, hsum1, hsum2]
        omega

theorem create_array_perm (pairs : List (Char × Nat)) :
    (create_and_build_min_heap pairs).array.Perm
      (pairs.map (fun p => new_node p.1 p.2)) := by
  show (build_min_heap (pairs.map (fun p => new_node p.1 p.2))).Perm
    (pairs.map (fun p => new_node p.1 p.2))
  exact build_min_heap_perm _

theorem sum_leaves_new : ∀ l : List (Char × Nat),
    ((l.map (fun p => new_node p.1 p.2)).map leaves).sum = l.length := by
  intro l
  induction l with
  | nil => rfl
  | cons p t ih => simp [new_node, leaves] at ih ⊢; omega

theorem sum_internals_new : ∀ l : List (Char × Nat),
    ((l.map (fun p => new_node p.1 p.2)).map internals).sum = 0 := by
  intro l
  induction l with
  | nil => rfl
  | cons p t ih => simpa [new_node, internals] using ih

theorem build_spec (pairs : List (Char × Nat)) (hne : pairs ≠ []) :
    ∃ root, buildLoopF pairs.length (create_and_build_min_heap pairs)
        = some (root, pairs.length - 1) ∧
      wfN root ∧ leaves root = pairs.length ∧ internals root = pairs.length - 1 := by
  have hlen : (create_and_build_min_heap pairs).array.length = pairs.length := by
    show (build_min_heap _).length = _
    rw [length_build_min_heap]
    simp
  have hpos : 1 ≤ pairs.length := by
    match pairs, hne with
    | p :: t, _ => simp
  have hwf0 : ∀ t ∈ (create_and_build_min_heap pairs).array, wfN t := by
    intro t ht
    have hmem := (create_array_perm pairs).mem_iff.mp ht
    obtain ⟨p, -, rfl⟩ := List.mem_map.mp hmem
    simp [new_node, wfN]
  have hsl : sumLeaves (create_and_build_min_heap pairs) = pairs.length := by
    unfold sumLeaves
    rw [perm_sumMap leaves (create_array_perm pairs), sum_leaves_new]
  have hsi : sumInternals (create_and_build_min_heap pairs) = 0 := by
    unfold sumInternals
    rw [perm_sumMap internals (create_array_perm pairs), sum_internals_new]
  have hcap : (create_and_build_min_heap pairs).capacity = pairs.length := rfl
  obtain ⟨root, c, he, hc, hwfr, hl, hi⟩ :=
    buildLoopF_spec pairs.length (create_and_build_min_heap pairs)
      (le_of_eq hlen) (by omega) (by omega) hwf0
  refine ⟨root, ?_, hwfr, ?_, ?_⟩
  · rw [he, hc, hlen]
  · rw [hl, hsl]
  · rw [hi, hsi, hlen]
    omega

/-- Claim C1: for every non-empty input of `n` pairs, `build_huffman_tree`
performs exactly `n − 1` merge iterations and returns a tree with exactly
`n` leaves and `n − 1` internal nodes. -/
theorem huffman_c1 (pairs : List (Char × Nat)) (hne : pairs ≠ []) :
    ∃ root, build_huffman_tree pairs = some root ∧
      build_merge_count pairs = some (pairs.length - 1) ∧
      leaves root = pairs.length ∧ internals root = pairs.length - 1 := by
  obtain ⟨root, he, -, hl, hi⟩ := build_spec pairs hne
  refine ⟨root, ?_, ?_, hl, hi⟩
  · unfold build_huffman_tree
    rw [he]
    rfl
  · unfold build_merge_count
    rw [he]
    rfl

theorem huffman_c1_witness :
    ∃ root, build_huffman_tree [('a', 1), ('b', 2)] = some root ∧
      build_merge_count [('a', 1), ('b', 2)] = some 1 ∧
      leaves root = 2 ∧ internals root = 1 :=
  huffman_c1 [('a', 1), ('b', 2)] (by decide)

/-- Claim C4: every tree returned by `build_huffman_tree` has the sum of its
leaf weights equal to the weight stored at its root. -/
theorem huffman_c4 (pairs : List (Char × Nat)) (root : NodeP)
    (he : build_huffman_tree pairs = some root) : leafSum root = root.freq := by
  by_cases hne : pairs = []
  · rw [hne, show build_huffman_tree [] = none from rfl] at he
    exact Option.noConfusion he
  · obtain ⟨root2, he2, hwfr, -, -⟩ := build_spec pairs hne
    unfold build_huffman_tree at he
    rw [he2] at he
    have heq : some root2 = some root := he
    injection heq with h
    rw [← h]
    exact wfN_leafSum root2 hwfr

theorem huffman_c4_witness :
    leafSum (NodeP.node none 3 (.node none 1 .null .null) (.node none 2 .null .null))
      = (NodeP.node none 3 (.node none 1 .null .null) (.node none 2 .null .null)).freq :=
  huffman_c4 [('a', 1), ('b', 2)]
    (NodeP.node none 3 (.node none 1 .null .null) (.node none 2 .null .null)) rfl

/-! ### Array-subtree membership facts -/

theorem not_inSub_of_lt (s j : Nat) (h : j < s) : inSub s j = false := by
  unfold inSub
  rw [if_pos h]

theorem inSub_self (s : Nat) : inSub s s = true := by
  unfold inSub
  simp

theorem inSub_ge (s j : Nat) (h : inSub s j = true) : s ≤ j := by
  by_contra hlt
  rw [not_inSub_of_lt s j (by omega)] at h
  exact Bool.noConfusion h

theorem inSub_unfold_gt (s j : Nat) (h : s < j) : inSub s j = inSub s ((j-1)/2) := by
  rw [inSub.eq_def]
  rw [if_neg (by omega), if_neg (by omega)]

theorem inSub_parent (s j : Nat) (hj : inSub s j = true) (hne : j ≠ s) :
    inSub s ((j-1)/2) = true := by
  have hge := inSub_ge s j hj
  rw [inSub_unfold_gt s j (by omega)] at hj
  exact hj

theorem inSub_child_left (s j : Nat) (h : inSub s j = true) : inSub s (2*j+1) = true := by
  have hge := inSub_ge s j h
  rw [inSub_unfold_gt s (2*j+1) (by omega)]
  have heq : (2*j+1-1)/2 = j := by omega
  rw [heq]
  exact h

theorem inSub_child_right (s j : Nat) (h : inSub s j = true) : inSub s (2*j+2) = true := by
  have hge := inSub_ge s j h
  rw [inSub_unfold_gt s (2*j+2) (by omega)]
  have heq : (2*j+2-1)/2 = j := by omega
  rw [heq]
  exact h

theorem inSub_zero : ∀ j, inSub 0 j = true := by
  intro j
  induction j using Nat.strong_induction_on with
  | _ j ih =>
    match j with
    | 0 => exact inSub_self 0
    | Nat.succ j =>
      rw [inSub_unfold_gt 0 (j+1) (by omega)]
      exact ih _ (by omega)

theorem inSub_trans : ∀ (j s t : Nat), inSub s t = true → inSub t j = true →
    inSub s j = true := by
  intro j
  induction j using Nat.strong_induction_on with
  | _ j ih =>
    intro s t hst htj
    by_cases hjt : j = t
    · rw [hjt]; exact hst
    · have htle := inSub_ge t j htj
      have hsle := inSub_ge s t hst
      have hpar := inSub_parent t j htj hjt
      have := ih ((j-1)/2) (by omega) s t hst hpar
      rw [inSub_unfold_gt s j (by omega)]
      exact this

theorem inSub_cases (s j : Nat) (h : inSub s j = true) :
    j = s ∨ inSub (2*s+1) j = true ∨ inSub (2*s+2) j = true := by
  induction j using Nat.strong_induction_on with
  | _ j ih =>
    by_cases hjs : j = s
    · exact Or.inl hjs
    · have hge := inSub_ge s j h
      have hpar := inSub_parent s j h hjs
      have hj1 : 1 ≤ j := by omega
      rcases ih ((j-1)/2) (by omega) hpar with hps | hpl | hpr
      · have : j = 2*s+1 ∨ j = 2*s+2 := by omega
        rcases this with hj | hj
        · rw [hj]; exact Or.inr (Or.inl (inSub_self _))
        · rw [hj]; exact Or.inr (Or.inr (inSub_self _))
      · refine Or.inr (Or.inl ?_)
        have hle := inSub_ge _ _ hpl
        rw [inSub_unfold_gt (2*s+1) j (by omega)]
        exact hpl
      · refine Or.inr (Or.inr ?_)
        have hle := inSub_ge _ _ hpr
        rw [inSub_unfold_gt (2*s+2) j (by omega)]
        exact hpr

theorem inSub_siblings : ∀ (j i : Nat), inSub (2*i+1) j = true →
    inSub (2*i+2) j = true → False := by
  intro j
  induction j using Nat.strong_induction_on with
  | _ j ih =>
    intro i h1 h2
    by_cases hj1 : j = 2*i+1
    · have := inSub_ge (2*i+2) j h2
      omega
    · by_cases hj2 : j = 2*i+2
      · rw [hj2] at h1
        have := inSub_ge (2*i+1) ((2*i+2-1)/2) (inSub_parent _ _ h1 (by omega))
        omega
      · have hg1 := inSub_ge _ _ h1
        exact ih ((j-1)/2) (by omega) i (inSub_parent _ _ h1 hj1)
          (inSub_parent _ _ h2 hj2)

/-- If the subtree at `s` is locally a heap, the root of the subtree holds
the minimum freq of the subtree. -/
theorem root_min (a : List NodeP) (s : Nat) (hs : subOk a s) :
    ∀ j, inSub s j = true → j < a.length → fr a s ≤ fr a j := by
  intro j
  induction j using Nat.strong_induction_on with
  | _ j ih =>
    intro hj hlen
    by_cases hjs : j = s
    · rw [hjs]
    · have hge := inSub_ge s j hj
      have hpar := inSub_parent s j hj hjs
      have hloc := hs ((j-1)/2) hpar
      have hchild : j = 2*((j-1)/2)+1 ∨ j = 2*((j-1)/2)+2 := by omega
      have hstep : fr a ((j-1)/2) ≤ fr a j := by
        rcases hchild with hc | hc
        · have := hloc.1; rw [← hc] at this; exact this hlen
        · have := hloc.2; rw [← hc] at this; exact this hlen
      have hroot := ih ((j-1)/2) (by omega) hpar (by omega)
      omega

theorem fr_eq_of_getD (a a' : List NodeP) (j : Nat)
    (h : a'.getD j .null = a.getD j .null) : fr a' j = fr a j := by
  unfold fr
  rw [h]

theorem localOk_of_eq (a a' : List NodeP) (j : Nat) (hlen : a'.length = a.length)
    (hj : fr a' j = fr a j) (hl : fr a' (2*j+1) = fr a (2*j+1))
    (hr : fr a' (2*j+2) = fr a (2*j+2)) (h : localOk a j) : localOk a' j := by
  unfold localOk at h ⊢
  rw [hlen, hj, hl, hr]
  exact h

/-- Correctness of the sift-down `heapify` (fueled): if the subtrees rooted
at the two children of `i` are heaps, then after `heapify` the subtree rooted
at `i` is a heap; moreover entries outside the subtree of `i` are untouched
and any lower bound on the freqs of the subtree of `i` is preserved. -/
theorem heapifyF_main : ∀ (f : Nat) (a : List NodeP) (i : Nat),
    a.length ≤ f + i →
    subOk a (2*i+1) → subOk a (2*i+2) →
    subOk (heapifyF f a i) i ∧
    (∀ j, inSub i j = false → (heapifyF f a i).getD j .null = a.getD j .null) ∧
    (∀ c, (∀ j, inSub i j = true → j < a.length → c ≤ fr a j) →
      ∀ j, inSub i j = true → j < a.length → c ≤ fr (heapifyF f a i) j) := by
  intro f
  induction f with
  | zero =>
    intro a i hlen hL hR
    have h0 : heapifyF 0 a i = a := rfl
    rw [h0]
    refine ⟨fun j hj => ?_, fun j _ => rfl, fun c hc j hj hjl => hc j hj hjl⟩
    have hge := inSub_ge i j hj
    exact ⟨fun h2 => absurd h2 (by omega), fun h2 => absurd h2 (by omega)⟩
  | succ f ih =>
    intro a i hlen hL hR
    simp only [heapifyF]
    rcases smallestIdx_spec a i with ⟨hsi, hnl, hnr⟩ | ⟨hdisj, hslen, hsgt, hslt, hsl, hsr⟩
    · rw [if_neg (by simp [hsi])]
      refine ⟨fun j hj => ?_, fun j _ => rfl, fun c hc j hj hjl => hc j hj hjl⟩
      rcases inSub_cases i j hj with hje | hjl2 | hjr2
      · rw [hje]
        exact ⟨hnl, hnr⟩
      · exact hL j hjl2
      · exact hR j hjr2
    · have hne : smallestIdx a i ≠ i := by omega
      rw [if_pos hne]
      set s := smallestIdx a i with hs_def
      have hilen : i < a.length := lt_trans hsgt hslen
      have hlen' : (swapL a s i).length = a.length := length_swapL a s i
      have hfrs : fr (swapL a s i) s = fr a i := fr_swapL_fst a s i hslen (by omega)
      have hfri : fr (swapL a s i) i = fr a s := fr_swapL_snd a s i hilen
      have hfro : ∀ k, k ≠ s → k ≠ i → fr (swapL a s i) k = fr a k :=
        fun k h1 h2 => fr_swapL_other a s i k h1 h2
      have hgo : ∀ k, k ≠ s → k ≠ i → (swapL a s i).getD k .null = a.getD k .null :=
        fun k h1 h2 => swapL_getD_other a s i k h1 h2
      have hsubs : subOk a s := by
        rcases hdisj with h | h
        · rw [h]; exact hL
        · rw [h]; exact hR
      have hins : inSub i s = true := by
        rcases hdisj with h | h
        · rw [h]; exact inSub_child_left i i (inSub_self i)
        · rw [h]; exact inSub_child_right i i (inSub_self i)
      have hsub1 : subOk (swapL a s i) (2*s+1) := by
        intro j hj
        have hgej := inSub_ge _ _ hj
        have hjs : inSub s j = true :=
          inSub_trans j s (2*s+1) (inSub_child_left s s (inSub_self s)) hj
        exact localOk_of_eq a _ j hlen' (hfro j (by omega) (by omega))
          (hfro _ (by omega) (by omega)) (hfro _ (by omega) (by omega)) (hsubs j hjs)
      have hsub2 : subOk (swapL a s i) (2*s+2) := by
        intro j hj
        have hgej := inSub_ge _ _ hj
        have hjs : inSub s j = true :=
          inSub_trans j s (2*s+2) (inSub_child_right s s (inSub_self s)) hj
        exact localOk_of_eq a _ j hlen' (hfro j (by omega) (by omega))
          (hfro _ (by omega) (by omega)) (hfro _ (by omega) (by omega)) (hsubs j hjs)
      obtain ⟨ihSub, ihFrame, ihBound⟩ := ih (swapL a s i) s (by omega) hsub1 hsub2
      have hlenR : (heapifyF f (swapL a s i) s).length = a.length := by
        rw [length_heapifyF, hlen']
      have hiNot : inSub s i = false := not_inSub_of_lt s i hsgt
      have hfr_i : fr (heapifyF f (swapL a s i) s) i = fr a s := by
        rw [fr_eq_of_getD (swapL a s i) (heapifyF f (swapL a s i) s) i
          (ihFrame i hiNot), hfri]
      have hboundPre : ∀ k, inSub s k = true → k < (swapL a s i).length →
          fr a s ≤ fr (swapL a s i) k := by
        intro k hk hkl
        rw [hlen'] at hkl
        by_cases hks : k = s
        · rw [hks, hfrs]
          exact le_of_lt hslt
        · have hgk := inSub_ge _ _ hk
          rw [hfro k hks (by omega)]
          exact root_min a s hsubs k hk hkl
      have hbndS : ∀ k, inSub s k = true → k < a.length →
          fr a s ≤ fr (heapifyF f (swapL a s i) s) k := by
        intro k hk hkl
        exact ihBound (fr a s) hboundPre k hk (by rw [hlen']; exact hkl)
      refine ⟨?_, ?_, ?_⟩
      · intro j hj
        rcases inSub_cases i j hj with hje | hjl2 | hjr2
        · rw [hje]
          constructor
          · intro hc
            rw [hlenR] at hc
            rw [hfr_i]
            rcases hdisj with hds | hds
            · rw [← hds]
              exact hbndS s (inSub_self s) (by omega)
            · have hnot : inSub s (2*i+1) = false := by
                cases hval : inSub s (2*i+1)
                · rfl
                · have := inSub_ge _ _ hval
                  omega
              rw [fr_eq_of_getD _ _ (2*i+1) (ihFrame (2*i+1) hnot),
                hfro (2*i+1) (by omega) (by omega)]
              exact hsl hc
          · intro hc
            rw [hlenR] at hc
            rw [hfr_i]
            rcases hdisj with hds | hds
            · have hnot : inSub s (2*i+2) = false := by
                cases hval : inSub s (2*i+2)
                · rfl
                · exfalso
                  rw [hds] at hval
                  exact inSub_siblings (2*i+2) i hval (inSub_self (2*i+2))
              rw [fr_eq_of_getD _ _ (2*i+2) (ihFrame (2*i+2) hnot),
                hfro (2*i+2) (by omega) (by omega)]
              exact hsr hc
            · rw [← hds]
              exact hbndS s (inSub_self s) (by omega)
        · rcases hdisj with hds | hds
          · rw [← hds] at hjl2
            exact ihSub j hjl2
          · have hjges := inSub_ge _ _ hjl2
            have hnotj : inSub s j = false := by
              cases hval : inSub s j
              · rfl
              · exfalso
                rw [hds] at hval
                exact inSub_siblings j i hjl2 hval
            have hnotc1 : inSub s (2*j+1) = false := by
              cases hval : inSub s (2*j+1)
              · rfl
              · exfalso
                rw [hds] at hval
                exact inSub_siblings (2*j+1) i (inSub_child_left _ _ hjl2) hval
            have hnotc2 : inSub s (2*j+2) = false := by
              cases hval : inSub s (2*j+2)
              · rfl
              · exfalso
                rw [hds] at hval
                exact inSub_siblings (2*j+2) i (inSub_child_right _ _ hjl2) hval
            have hjns : j ≠ s := fun h => by
              rw [h, inSub_self] at hnotj
              exact Bool.noConfusion hnotj
            have hA : fr (heapifyF f (swapL a s i) s) j = fr a j := by
              rw [fr_eq_of_getD _ _ j (ihFrame j hnotj), hfro j hjns (by omega)]
            have hB : fr (heapifyF f (swapL a s i) s) (2*j+1) = fr a (2*j+1) := by
              rw [fr_eq_of_getD _ _ _ (ihFrame _ hnotc1)]
              refine hfro _ ?_ (by omega)
              intro h
              rw [← h] at hnotc1
              rw [inSub_self] at hnotc1
              exact Bool.noConfusion hnotc1
            have hC : fr (heapifyF f (swapL a s i) s) (2*j+2) = fr a (2*j+2) := by
              rw [fr_eq_of_getD _ _ _ (ihFrame _ hnotc2)]
              refine hfro _ ?_ (by omega)
              intro h
              rw [← h] at hnotc2
              rw [inSub_self] at hnotc2
              exact Bool.noConfusion hnotc2
            exact localOk_of_eq a _ j hlenR hA hB hC (hL j hjl2)
        · rcases hdisj with hds | hds
          · have hjges := inSub_ge _ _ hjr2
            have hnotj : inSub s j = false := by
              cases hval : inSub s j
              · rfl
              · exfalso
                rw [hds] at hval
                exact inSub_siblings j i hval hjr2
            have hnotc1 : inSub s (2*j+1) = false := by
              cases hval : inSub s (2*j+1)
              · rfl
              · exfalso
                rw [hds] at hval
                exact inSub_siblings (2*j+1) i hval (inSub_child_left _ _ hjr2)
            have hnotc2 : inSub s (2*j+2) = false := by
              cases hval : inSub s (2*j+2)
              · rfl
              · exfalso
                rw [hds] at hval
                exact inSub_siblings (2*j+2) i hval (inSub_child_right _ _ hjr2)
            have hjns : j ≠ s := fun h => by
              rw [h, inSub_self] at hnotj
              exact Bool.noConfusion hnotj
            have hA : fr (heapifyF f (swapL a s i) s) j = fr a j := by
              rw [fr_eq_of_getD _ _ j (ihFrame j hnotj), hfro j hjns (by omega)]
            have hB : fr (heapifyF f (swapL a s i) s) (2*j+1) = fr a (2*j+1) := by
              rw [fr_eq_of_getD _ _ _ (ihFrame _ hnotc1)]
              refine hfro _ ?_ (by omega)
              intro h
              rw [← h] at hnotc1
              rw [inSub_self] at hnotc1
              exact Bool.noConfusion hnotc1
            have hC : fr (heapifyF f (swapL a s i) s) (2*j+2) = fr a (2*j+2) := by
              rw [fr_eq_of_getD _ _ _ (ihFrame _ hnotc2)]
              refine hfro _ ?_ (by omega)
              intro h
              rw [← h] at hnotc2
              rw [inSub_self] at hnotc2
              exact Bool.noConfusion hnotc2
            exact localOk_of_eq a _ j hlenR hA hB hC (hR j hjr2)
          · rw [← hds] at hjr2
            exact ihSub j hjr2
      · intro j hj
        have hji : j ≠ i := fun h => by
          rw [h, inSub_self] at hj
          exact Bool.noConfusion hj
        have hjs : j ≠ s := fun h => by
          rw [h] at hj
          rw [hins] at hj
          exact Bool.noConfusion hj
        have hnotjs : inSub s j = false := by
          cases hval : inSub s j
          · rfl
          · exfalso
            have htr := inSub_trans j i s hins hval
            rw [htr] at hj
            exact Bool.noConfusion hj
        rw [ihFrame j hnotjs, hgo j hjs hji]
      · intro c hc j hj hjlen
        by_cases hjs : inSub s j = true
        · refine ihBound c ?_ j hjs (by rw [hlen']; exact hjlen)
          intro k hk hkl
          rw [hlen'] at hkl
          by_cases hks : k = s
          · rw [hks, hfrs]
            exact hc i (inSub_self i) hilen
          · have hgk := inSub_ge _ _ hk
            rw [hfro k hks (by omega)]
            exact hc k (inSub_trans k i s hins hk) hkl
        · have hjsF : inSub s j = false := by
            cases hval : inSub s j
            · rfl
            · exact absurd hval hjs
          rw [fr_eq_of_getD _ _ j (ihFrame j hjsF)]
          by_cases hji : j = i
          · rw [hji, hfri]
            exact hc s hins (by omega)
          · have hjns : j ≠ s := fun h => by
              rw [h, inSub_self] at hjsF
              exact Bool.noConfusion hjsF
            rw [hfro j hjns hji]
            exact hc j hj hjlen

theorem heapify_main (a : List NodeP) (i : Nat)
    (h1 : subOk a (2*i+1)) (h2 : subOk a (2*i+2)) :
    subOk (heapify a i) i ∧
    (∀ j, inSub i j = false → (heapify a i).getD j .null = a.getD j .null) := by
  have h := heapifyF_main a.length a i (by omega) h1 h2
  exact ⟨h.1, h.2.1⟩

theorem bool_eq_false {b : Bool} (h : ¬ b = true) : b = false := by
  cases b
  · rfl
  · exact absurd rfl h

/-- Bottom-up heapify: if the local heap condition already holds at every
index ≥ k, running `heapify` at `k-1, …, 0` makes it hold everywhere. -/
theorem heapifyDownFrom_ok : ∀ (k : Nat) (a : List NodeP),
    (∀ j, k ≤ j → localOk a j) → ∀ j, localOk (heapifyDownFrom a k) j := by
  intro k
  induction k with
  | zero =>
    intro a h j
    exact h j (Nat.zero_le j)
  | succ k ih =>
    intro a h j
    simp only [heapifyDownFrom]
    apply ih
    intro j2 hj2
    have hLsub : subOk a (2*k+1) := fun t ht => h t (by have := inSub_ge _ _ ht; omega)
    have hRsub : subOk a (2*k+2) := fun t ht => h t (by have := inSub_ge _ _ ht; omega)
    obtain ⟨hsub, hframe⟩ := heapify_main a k hLsub hRsub
    by_cases hjk : inSub k j2 = true
    · exact hsub j2 hjk
    · have hjkF : inSub k j2 = false := bool_eq_false hjk
      have hc1 : inSub k (2*j2+1) = false := by
        cases hval : inSub k (2*j2+1)
        · rfl
        · exfalso
          have hpar := inSub_parent k (2*j2+1) hval (by omega)
          have heq : (2*j2+1-1)/2 = j2 := by omega
          rw [heq] at hpar
          rw [hpar] at hjkF
          exact Bool.noConfusion hjkF
      have hc2 : inSub k (2*j2+2) = false := by
        cases hval : inSub k (2*j2+2)
        · rfl
        · exfalso
          have hpar := inSub_parent k (2*j2+2) hval (by omega)
          have heq : (2*j2+2-1)/2 = j2 := by omega
          rw [heq] at hpar
          rw [hpar] at hjkF
          exact Bool.noConfusion hjkF
      have hnejk : j2 ≠ k := fun heq => by
        rw [heq, inSub_self] at hjkF
        exact Bool.noConfusion hjkF
      exact localOk_of_eq a _ j2 (length_heapify a k)
        (fr_eq_of_getD _ _ _ (hframe j2 hjkF))
        (fr_eq_of_getD _ _ _ (hframe _ hc1))
        (fr_eq_of_getD _ _ _ (hframe _ hc2))
        (h j2 (by omega))

theorem build_min_heap_heapProp (a : List NodeP) : heapProp (build_min_heap a) := by
  unfold build_min_heap
  split
  next hz => exact fun i hi => absurd hi (by omega)
  next hnz =>
    intro i hi
    apply heapifyDownFrom_ok ((a.length - 2)/2 + 1) a ?_ i
    intro j hj
    constructor
    · intro h2
      exact absurd h2 (by omega)
    · intro h2
      exact absurd h2 (by omega)

/-- Array-level fact: `pop` preserves the heap property. -/
theorem popArr_heapProp (a : List NodeP) (hp : heapProp a) :
    heapProp (heapify ((a.set 0 (a.getD (a.length - 1) .null)).dropLast) 0) := by
  have hlen1 : ((a.set 0 (a.getD (a.length - 1) .null)).dropLast).length = a.length - 1 := by
    simp
  have hval1 : ∀ k, 1 ≤ k → k < a.length - 1 →
      ((a.set 0 (a.getD (a.length - 1) .null)).dropLast).getD k .null = a.getD k .null := by
    intro k h1 h2
    have hk0 : ¬ (0 = k) := by omega
    simp [List.getD_eq_getElem?_getD, List.getElem?_dropLast, List.getElem?_set,
      List.length_set, h2, hk0]
    rw [List.getElem?_eq_getElem (show k < a.length by omega)]
    rfl
  have hloc1 : ∀ j, 1 ≤ j → localOk ((a.set 0 (a.getD (a.length - 1) .null)).dropLast) j := by
    intro j hj
    constructor
    · intro h2
      rw [hlen1] at h2
      have e1 := fr_eq_of_getD _ _ _ (hval1 j hj (by omega))
      have e2 := fr_eq_of_getD _ _ _ (hval1 (2*j+1) (by omega) (by omega))
      rw [e1, e2]
      exact (hp j (by omega)).1 (by omega)
    · intro h2
      rw [hlen1] at h2
      have e1 := fr_eq_of_getD _ _ _ (hval1 j hj (by omega))
      have e2 := fr_eq_of_getD _ _ _ (hval1 (2*j+2) (by omega) (by omega))
      rw [e1, e2]
      exact (hp j (by omega)).2 (by omega)
  have hsubL : subOk ((a.set 0 (a.getD (a.length - 1) .null)).dropLast) (2*0+1) :=
    fun t ht => hloc1 t (by have := inSub_ge _ _ ht; omega)
  have hsubR : subOk ((a.set 0 (a.getD (a.length - 1) .null)).dropLast) (2*0+2) :=
    fun t ht => hloc1 t (by have := inSub_ge _ _ ht; omega)
  obtain ⟨hsub, -⟩ := heapify_main _ 0 hsubL hsubR
  intro i hi
  exact hsub i (inSub_zero i)

theorem pop_heapProp (heap_p : min_heap_t) (x : NodeP) (h' : min_heap_t)
    (hp : heapProp heap_p.array) (he : pop heap_p = some (x, h')) :
    heapProp h'.array := by
  rw [pop] at he
  split at he
  next => exact absurd he (by simp)
  next hnz =>
    simp only [Option.some.injEq, Prod.mk.injEq] at he
    obtain ⟨-, hh⟩ := he
    have harr : h'.array = heapify
        ((heap_p.array.set 0 (heap_p.array.getD (heap_p.array.length - 1) .null)).dropLast) 0 := by
      rw [← hh]
    rw [harr]
    exact popArr_heapProp heap_p.array hp

/-- Correctness of the sift-up loop of `insert`: if all parent/child pairs
except the one into the hole `i` are ordered, and the hole's own children are
already ≥ the hole's parent, then after the loop the whole array is a heap. -/
theorem insertLoopF_heapPairs : ∀ (f : Nat) (a : List NodeP) (n : NodeP) (i : Nat),
    i < a.length → i ≤ f →
    heapExceptAt (a.set i n) i →
    (i ≠ 0 → ∀ c, (c = 2*i+1 ∨ c = 2*i+2) → c < a.length →
      fr a ((i-1)/2) ≤ fr a c) →
    heapPairs (insertLoopF f a n i) := by
  intro f
  induction f with
  | zero =>
    intro a n i hilen hif hJ1 hJ2
    have h0 : insertLoopF 0 a n i = a.set i n := rfl
    rw [h0]
    intro j c hor hc
    refine hJ1 j c hor hc ?_
    have hi0 : i = 0 := by omega
    rcases hor with h | h <;> omega
  | succ f ih =>
    intro a n i hilen hif hJ1 hJ2
    have hbi : fr (a.set i n) i = n.freq := by
      unfold fr
      rw [getD_set_self _ _ _ hilen]
    have hbo : ∀ k, k ≠ i → fr (a.set i n) k = fr a k := by
      intro k hk
      unfold fr
      rw [getD_set_ne _ _ _ _ (Ne.symm hk)]
    simp only [insertLoopF]
    split
    next hcond =>
      obtain ⟨hine, hlt⟩ := hcond
      have hplt : (i-1)/2 < i := by omega
      have hplen : (i-1)/2 < a.length := by omega
      apply ih
      · simpa using hplen
      · omega
      · intro j c hor hc hcp
        have hclen : c < a.length := by simpa using hc
        have hjc : j < c := by rcases hor with h | h <;> omega
        have hb'p : fr ((a.set i (a.getD ((i-1)/2) .null)).set ((i-1)/2) n)
            ((i-1)/2) = n.freq := by
          unfold fr
          rw [getD_set_self]
          simpa using hplen
        have hb'i : fr ((a.set i (a.getD ((i-1)/2) .null)).set ((i-1)/2) n) i
            = fr a ((i-1)/2) := by
          unfold fr
          rw [getD_set_ne _ _ _ _ (by omega), getD_set_self _ _ _ hilen]
        have hb'o : ∀ k, k ≠ (i-1)/2 → k ≠ i →
            fr ((a.set i (a.getD ((i-1)/2) .null)).set ((i-1)/2) n) k = fr a k := by
          intro k h1 h2
          unfold fr
          rw [getD_set_ne _ _ _ _ (Ne.symm h1), getD_set_ne _ _ _ _ (Ne.symm h2)]
        by_cases hci : c = i
        · have hjp : j = (i-1)/2 := by rcases hor with h | h <;> omega
          rw [hjp, hci, hb'p, hb'i]
          exact le_of_lt hlt
        · by_cases hji : j = i
          · rw [hji, hb'i, hb'o c hcp hci]
            apply hJ2 hine c ?_ hclen
            rcases hor with h | h
            · rw [hji] at h
              exact Or.inl h
            · rw [hji] at h
              exact Or.inr h
          · by_cases hjp : j = (i-1)/2
            · rw [hjp, hb'p, hb'o c hcp hci]
              have hpc : fr (a.set i n) ((i-1)/2) ≤ fr (a.set i n) c := by
                apply hJ1 ((i-1)/2) c ?_ (by simpa using hclen) hci
                rcases hor with h | h
                · rw [hjp] at h
                  exact Or.inl h
                · rw [hjp] at h
                  exact Or.inr h
              rw [hbo _ (by omega), hbo _ hci] at hpc
              omega
            · rw [hb'o j hjp hji, hb'o c hcp hci]
              have hJ := hJ1 j c hor (by simpa using hclen) hci
              rw [hbo _ hji, hbo _ hci] at hJ
              exact hJ
      · intro hp0 c hor hclen
        have hclen' : c < a.length := by simpa using hclen
        have hpplt : ((i-1)/2-1)/2 < (i-1)/2 := by omega
        have hppne : ((i-1)/2-1)/2 ≠ i := by omega
        have ha'o : ∀ k, k ≠ i →
            fr (a.set i (a.getD ((i-1)/2) .null)) k = fr a k := by
          intro k hk
          unfold fr
          rw [getD_set_ne _ _ _ _ (Ne.symm hk)]
        have ha'i : fr (a.set i (a.getD ((i-1)/2) .null)) i = fr a ((i-1)/2) := by
          unfold fr
          rw [getD_set_self _ _ _ hilen]
        have hparity : (i-1)/2 = 2*(((i-1)/2-1)/2)+1 ∨
            (i-1)/2 = 2*(((i-1)/2-1)/2)+2 := by omega
        have hppp : fr a (((i-1)/2-1)/2) ≤ fr a ((i-1)/2) := by
          have hJ := hJ1 (((i-1)/2-1)/2) ((i-1)/2) hparity (by simpa using hplen)
            (by omega)
          rw [hbo _ hppne, hbo _ (by omega)] at hJ
          exact hJ
        rw [ha'o _ hppne]
        by_cases hci : c = i
        · rw [hci, ha'i]
          exact hppp
        · rw [ha'o c hci]
          have hpc : fr a ((i-1)/2) ≤ fr a c := by
            have hJ := hJ1 ((i-1)/2) c hor (by simpa using hclen') hci
            rw [hbo _ (by omega), hbo _ hci] at hJ
            exact hJ
          omega
    next hcond =>
      intro j c hor hc
      by_cases hci : c = i
      · have hne0 : i ≠ 0 := by rcases hor with h | h <;> omega
        have hge : ¬ n.freq < fr a ((i-1)/2) := fun hl => hcond ⟨hne0, hl⟩
        have hjp : j = (i-1)/2 := by rcases hor with h | h <;> omega
        rw [hci, hjp, hbo _ (by omega), hbi]
        omega
      · exact hJ1 j c hor hc hci

theorem insert_heapProp (heap_p : min_heap_t) (node_p : NodeP) (h' : min_heap_t)
    (hp : heapProp heap_p.array) (he : insert heap_p node_p = some h') :
    heapProp h'.array := by
  rw [insert] at he
  split at he
  next hlt =>
    simp only [Option.some.injEq] at he
    have harr : h'.array = insertLoopF heap_p.array.length
        (heap_p.array ++ [node_p]) node_p heap_p.array.length := by
      rw [← he]
    rw [harr]
    have hfrk : ∀ k, k < heap_p.array.length →
        fr (heap_p.array ++ [node_p]) k = fr heap_p.array k := by
      intro k hk
      unfold fr
      rw [List.getD_eq_getElem?_getD, List.getD_eq_getElem?_getD,
        List.getElem?_append, if_pos hk]
    have hset : (heap_p.array ++ [node_p]).set heap_p.array.length node_p
        = heap_p.array ++ [node_p] := by
      rw [List.set_append_right _ _ (le_refl _)]
      simp
    have hpp : heapPairs (insertLoopF heap_p.array.length
        (heap_p.array ++ [node_p]) node_p heap_p.array.length) := by
      apply insertLoopF_heapPairs
      · simp
      · exact le_refl _
      · intro j c hor hc hci
        rw [hset] at hc ⊢
        have hc1 : c < heap_p.array.length + 1 := by simpa using hc
        have hc' : c < heap_p.array.length := by omega
        have hjc : j < c := by rcases hor with h | h <;> omega
        rw [hfrk j (by omega), hfrk c hc']
        rcases hor with h | h
        · subst h
          exact (hp j (by omega)).1 (by omega)
        · subst h
          exact (hp j (by omega)).2 (by omega)
      · intro h0 c hor hclen
        exfalso
        have : c < heap_p.array.length + 1 := by simpa using hclen
        rcases hor with h | h <;> omega
    intro i2 hi2
    exact ⟨fun hcc => hpp i2 _ (Or.inl rfl) hcc, fun hcc => hpp i2 _ (Or.inr rfl) hcc⟩
  next => exact absurd he (by simp)

/-- Claim C3: the heap property is preserved by `insert` and by `pop`
(extractMin), and is established by `build_min_heap` (buildFrom) with no
precondition on the input order. -/
theorem huffman_c3 :
    (∀ (heap_p : min_heap_t) (node_p : NodeP) (h' : min_heap_t),
      heapProp heap_p.array → insert heap_p node_p = some h' →
      heapProp h'.array) ∧
    (∀ (heap_p : min_heap_t) (x : NodeP) (h' : min_heap_t),
      heapProp heap_p.array → pop heap_p = some (x, h') → heapProp h'.array) ∧
    (∀ a : List NodeP, heapProp (build_min_heap a)) :=
  ⟨fun heap_p node_p h' hp he => insert_heapProp heap_p node_p h' hp he,
   fun heap_p x h' hp he => pop_heapProp heap_p x h' hp he,
   build_min_heap_heapProp⟩

theorem huffman_c3_witness :
    heapProp [NodeP.node none 1 .null .null, NodeP.node none 2 .null .null] :=
  huffman_c3.1 ⟨2, [NodeP.node none 2 .null .null]⟩ (NodeP.node none 1 .null .null)
    ⟨2, [NodeP.node none 1 .null .null, NodeP.node none 2 .null .null]⟩
    (by decide) rfl

/-- On a heap, `pop` returns a node of minimal freq. -/
theorem pop_min (heap_p : min_heap_t) (x : NodeP) (h' : min_heap_t)
    (hp : heapProp heap_p.array) (he : pop heap_p = some (x, h')) :
    ∀ y ∈ heap_p.array, x.freq ≤ y.freq := by
  rw [pop] at he
  split at he
  next => exact absurd he (by simp)
  next hnz =>
    simp only [Option.some.injEq, Prod.mk.injEq] at he
    obtain ⟨hx, -⟩ := he
    intro y hy
    obtain ⟨k, hk, hyk⟩ := List.getElem_of_mem hy
    have hsub : subOk heap_p.array 0 := by
      intro t _
      by_cases ht : t < heap_p.array.length
      · exact hp t ht
      · exact ⟨fun h2 => absurd h2 (by omega), fun h2 => absurd h2 (by omega)⟩
    have hroot : fr heap_p.array 0 ≤ fr heap_p.array k :=
      root_min _ 0 hsub k (inSub_zero k) hk
    have h1 : x.freq = fr heap_p.array 0 := by
      rw [← hx]
      rfl
    have h2 : fr heap_p.array k = y.freq := by
      unfold fr
      rw [List.getD_eq_getElem?_getD, List.getElem?_eq_getElem hk]
      simp [hyk]
    omega

/-- Repeated `pop` yields a non-decreasing freq sequence. -/
theorem popSeq_chain : ∀ (k : Nat) (heap_p : min_heap_t), heapProp heap_p.array →
    List.Chain' (· ≤ ·) (popSeq heap_p k) := by
  intro k
  induction k with
  | zero =>
    intro heap_p _
    simp [popSeq]
  | succ k ih =>
    intro heap_p hp
    simp only [popSeq]
    match he : pop heap_p with
    | none => simp
    | some (x, h2) =>
      have hp2 : heapProp h2.array := pop_heapProp heap_p x h2 hp he
      have hchain := ih h2 hp2
      rw [List.chain'_cons']
      refine ⟨?_, hchain⟩
      intro b hb
      match k, hb with
      | 0, hb => simp [popSeq] at hb
      | k2+1, hb =>
        simp only [popSeq] at hb
        match he2 : pop h2 with
        | none =>
          rw [he2] at hb
          simp at hb
        | some (y, h3) =>
          rw [he2] at hb
          simp at hb
          rw [← hb]
          have hy2 : y ∈ h2.array := by
            rw [pop] at he2
            split at he2
            next => exact absurd he2 (by simp)
            next hnz2 =>
              simp only [Option.some.injEq, Prod.mk.injEq] at he2
              obtain ⟨hy, -⟩ := he2
              rw [← hy]
              have hne : h2.array ≠ [] := by
                intro hcc
                rw [hcc] at hnz2
                exact hnz2 rfl
              match h2.array, hne with
              | z :: t, _ => exact List.mem_cons_self z t
          have hymem : y ∈ heap_p.array :=
            (pop_perm heap_p x h2 he).mem_iff.mpr (List.mem_cons_of_mem x hy2)
          exact pop_min heap_p x h2 hp he y hymem

/-- Claim C2: on a heap satisfying the heap property, `pop` (extractMin)
returns a node whose freq is ≤ every freq stored in the heap, and the
sequence of freqs from successive `pop` calls is non-decreasing. -/
theorem huffman_c2 :
    (∀ (heap_p : min_heap_t) (x : NodeP) (h' : min_heap_t),
      heapProp heap_p.array → pop heap_p = some (x, h') →
      ∀ y ∈ heap_p.array, x.freq ≤ y.freq) ∧
    (∀ (heap_p : min_heap_t) (k : Nat), heapProp heap_p.array →
      List.Chain' (· ≤ ·) (popSeq heap_p k)) :=
  ⟨fun heap_p x h' hp he => pop_min heap_p x h' hp he,
   fun heap_p k hp => popSeq_chain k heap_p hp⟩

theorem huffman_c2_witness :
    ∀ y ∈ [NodeP.node none 1 .null .null, NodeP.node none 2 .null .null],
      (NodeP.node none 1 .null .null).freq ≤ y.freq :=
  huffman_c2.1 ⟨2, [NodeP.node none 1 .null .null, NodeP.node none 2 .null .null]⟩
    (NodeP.node none 1 .null .null) ⟨2, [NodeP.node none 2 .null .null]⟩
    (by decide) rfl

end HuffC
